import Mathlib

/-!
Verification of the personal-blog repository: a shallow embedding of the
page-view analytics shim (`static-site/src/theme/Root.tsx`) and the content
sync script (`scripts/sync-posts-to-docusaurus.mjs`), with theorems settling
the specification claims about them.
-/

namespace BlogVerify

/-! ## Page-view shim (src/static-site/src/theme/Root.tsx)

The shim keeps a single mutable cell `lastPathRef` and, on each navigation
path change, skips the event when the path equals the last recorded path;
otherwise it records the path and, when the optional global callback
`window.__trackPageView` is defined, invokes it with `(path, document.title)`.
We model the observable behaviour as a state machine over the sequence of
path-change events: `track` says whether the global callback is defined and
`calls` accumulates the invocations of the callback, in order. -/

structure ShimState where
  lastPath : Option String
  calls : List (String × String)
deriving DecidableEq, Repr

def shimStep (track : Bool) (title : String) (s : ShimState) (path : String) : ShimState :=
  if s.lastPath = some path then s
  else
    { lastPath := some path
      calls := s.calls ++ (if track then [(path, title)] else []) }

def runShim (track : Bool) (title : String) (paths : List String) : ShimState :=
  paths.foldl (shimStep track title) { lastPath := none, calls := [] }

/-- The path sequence with consecutive duplicates (relative to a previous
path) removed: exactly the paths for which the shim invokes the callback. -/
def dedupFrom (prev : Option String) : List String → List String
  | [] => []
  | p :: rest =>
    if prev = some p then dedupFrom prev rest
    else p :: dedupFrom (some p) rest

lemma foldl_shimStep_calls (title : String) :
    ∀ (paths : List String) (s : ShimState),
      (paths.foldl (shimStep true title) s).calls
        = s.calls ++ (dedupFrom s.lastPath paths).map (fun p => (p, title)) := by
  intro paths
  induction paths with
  | nil => intro s; simp [dedupFrom]
  | cons p rest ih =>
    intro s
    simp only [List.foldl_cons, dedupFrom, shimStep]
    by_cases h : s.lastPath = some p
    · simp [h, ih]
    · simp [h, ih, List.append_assoc]

lemma foldl_shimStep_untracked_calls (title : String) :
    ∀ (paths : List String) (s : ShimState),
      (paths.foldl (shimStep false title) s).calls = s.calls := by
  intro paths
  induction paths with
  | nil => intro s; rfl
  | cons p rest ih =>
    intro s
    simp only [List.foldl_cons, shimStep]
    by_cases h : s.lastPath = some p
    · simp [h, ih]
    · simp [h, ih]

lemma dedupFrom_head_ne (p : String) :
    ∀ (rest : List String) (q : String),
      (dedupFrom (some p) rest).head? = some q → q ≠ p := by
  intro rest
  induction rest with
  | nil => intro q h; simp [dedupFrom] at h
  | cons r rs ih =>
    intro q h
    by_cases hr : p = r
    · subst hr
      rw [dedupFrom, if_pos rfl] at h
      exact ih q h
    · rw [dedupFrom, if_neg (by simpa using hr)] at h
      simp only [List.head?_cons, Option.some.injEq] at h
      subst h
      exact fun hrp => hr hrp.symm

lemma dedupFrom_chain_ne :
    ∀ (paths : List String) (prev : Option String),
      List.Chain' (fun a b => a ≠ b) (dedupFrom prev paths) := by
  intro paths
  induction paths with
  | nil => intro prev; simp [dedupFrom]
  | cons p rest ih =>
    intro prev
    simp only [dedupFrom]
    by_cases h : prev = some p
    · simpa [h] using ih (some p)
    · rw [if_neg h]
      refine List.chain'_cons'.mpr ⟨?_, ih (some p)⟩
      intro q hq
      exact (dedupFrom_head_ne p rest q hq).symm

/-! ## Claims about the page-view shim -/

/-- Claim C1, counterexample: the claim says the callback is invoked with a
given path at most once in total per page lifetime, for every sequence of
path-change events. On the event sequence `[/a, /b, /a]` with the callback
defined, the shim invokes the callback with path `/a` twice, because the
dedup cell only remembers the immediately preceding path. -/
theorem c1_counterexample :
    ¬ ((runShim true "t" ["/a", "/b", "/a"]).calls.countP
        (fun c => c.1 == "/a") ≤ 1) := by
  decide

/-- Claim C1, amended: the shim deduplicates only consecutive repetitions of
the same path. For every sequence of path-change events and defined callback,
the sequence of invocations is exactly the path sequence with consecutive
duplicates removed (each invocation paired with the page title), and in
particular no two consecutive invocations carry the same path. -/
theorem c1_amended_dedup_consecutive (title : String) (paths : List String) :
    (runShim true title paths).calls
        = (dedupFrom none paths).map (fun p => (p, title))
      ∧ List.Chain' (fun a b => a ≠ b)
          ((runShim true title paths).calls.map Prod.fst) := by
  have hcalls : (runShim true title paths).calls
      = (dedupFrom none paths).map (fun p => (p, title)) := by
    simpa using foldl_shimStep_calls title paths { lastPath := none, calls := [] }
  refine ⟨hcalls, ?_⟩
  rw [hcalls]
  have hfst : ((dedupFrom none paths).map (fun p => (p, title))).map Prod.fst
      = dedupFrom none paths := by
    induction dedupFrom none paths with
    | nil => rfl
    | cons a l ihl => simp only [List.map_cons, ihl]
  rw [hfst]
  exact dedupFrom_chain_ne paths none

/-- Claim C2: on the path-change sequence `[/a, /a, /b, /b, /a]` with the
tracking callback defined, the callback is invoked exactly three times, with
arguments `(/a, title)`, `(/b, title)`, `(/a, title)`, in that order. -/
theorem c2_sequence_three_calls (title : String) :
    (runShim true title ["/a", "/a", "/b", "/b", "/a"]).calls
      = [("/a", title), ("/b", title), ("/a", title)] := by
  rfl

/-- Claim C9: when the global tracking callback is undefined, every
navigation-path change completes (the step is a total function) and produces
no callback invocation: the list of observable calls is empty, and each
individual step leaves the call list unchanged. -/
theorem c9_no_callback_no_side_effect (title : String) (paths : List String) :
    (runShim false title paths).calls = []
      ∧ ∀ (s : ShimState) (p : String), (shimStep false title s p).calls = s.calls := by
  constructor
  · simpa using foldl_shimStep_untracked_calls title paths { lastPath := none, calls := [] }
  · intro s p
    simp only [shimStep]
    by_cases h : s.lastPath = some p
    · simp [h]
    · simp [h]

/-! ## Frontmatter serialization (scripts/sync-posts-to-docusaurus.mjs)

`toYamlValue` quotes strings after escaping internal double quotes
(the JS `value.replace` of every quote with a backslash-quote pair) and
renders arrays as bracketed, comma-separated lists of quoted members;
`buildFrontmatter` joins the delimiter and key lines with newlines in the
insertion order of the frontmatter object: title, slug, date, tags. -/

def escChars : List Char → List Char
  | [] => []
  | c :: cs => if c = '"' then '\\' :: '"' :: escChars cs else c :: escChars cs

/-- Model of JS `Array.prototype.join`: concatenate with a separator. -/
def joinSep (sep : String) : List String → String
  | [] => ""
  | [x] => x
  | x :: rest => x ++ sep ++ joinSep sep rest

inductive YamlValue where
  | str (s : String)
  | arr (items : List String)

def toYamlValue : YamlValue → String
  | .arr items =>
      "[" ++ joinSep ", " (items.map (fun i => "\"" ++ String.mk (escChars i.data) ++ "\"")) ++ "]"
  | .str s => "\"" ++ String.mk (escChars s.data) ++ "\""

def buildFrontmatter (title slug date : String) (tags : List String) : String :=
  joinSep "\n"
    ["---",
     "title: " ++ toYamlValue (.str title),
     "slug: " ++ toYamlValue (.str slug),
     "date: " ++ toYamlValue (.str date),
     "tags: " ++ toYamlValue (.arr tags),
     "---", ""]

lemma escChars_eq_flatMap (l : List Char) :
    escChars l = l.flatMap (fun c => if c = '"' then ['\\', '"'] else [c]) := by
  induction l with
  | nil => rfl
  | cons c cs ih =>
    by_cases h : c = '"'
    · simp [escChars, h, ih]
    · simp [escChars, h, ih]

/-- Claim C5: the serialized frontmatter block lists the keys in the fixed
order title, slug, date, tags between triple-dash delimiter lines, wraps
every string value in double quotes with each internal double quote escaped
by a backslash, and renders the tags array as a bracketed, comma-separated
list of quoted strings. -/
theorem c5_frontmatter_format (title slug date : String) (tags : List String) :
    buildFrontmatter title slug date tags
        = "---\ntitle: \"" ++ String.mk (escChars title.data)
          ++ "\"\nslug: \"" ++ String.mk (escChars slug.data)
          ++ "\"\ndate: \"" ++ String.mk (escChars date.data)
          ++ "\"\ntags: ["
          ++ joinSep ", " (tags.map (fun t => "\"" ++ String.mk (escChars t.data) ++ "\""))
          ++ "]\n---\n"
      ∧ ∀ s : String,
          escChars s.data = s.data.flatMap (fun c => if c = '"' then ['\\', '"'] else [c]) := by
  constructor
  · apply String.ext
    simp only [buildFrontmatter, joinSep, toYamlValue, String.data_append, List.append_assoc]
    rfl
  · intro s
    exact escChars_eq_flatMap s.data

/-! ## Asset-path rewriting (scripts/sync-posts-to-docusaurus.mjs)

`rewriteAssetPaths` models the JS global regex replace
`markdown.replace(re, (m, fileName) => ...)` for the pattern
dot-slash-assets-slash followed by one or more non-whitespace characters
(the capture group is a greedy run of non-whitespace). The scanner walks the
character list left to right; at each position it either starts a match —
the nine pattern characters followed by a nonempty maximal run of
non-whitespace characters, which is replaced by slash-posts-slash, the slug,
a slash and the captured run, resuming after the match — or emits one
character and advances, exactly like the JS regex engine searching for the
leftmost match. Fuel bounds the recursion; the list length is always enough
fuel because every step consumes at least one character. -/

/-- Whitespace per the JS regex class backslash-s (ECMA-262 WhiteSpace and
LineTerminator code points). -/
def isJsSpace (c : Char) : Bool :=
  c = ' ' || c = '\t' || c = '\n' || c = '\r' ||
  c = '\u000B' || c = '\u000C' ||
  c.val = 0x00A0 || c.val = 0x1680 ||
  (0x2000 <= c.val && c.val <= 0x200A) ||
  c.val = 0x2028 || c.val = 0x2029 || c.val = 0x202F ||
  c.val = 0x205F || c.val = 0x3000 || c.val = 0xFEFF

def nonWs (c : Char) : Bool := !(isJsSpace c)

def assetPat : List Char := "./assets/".data

def startsPat (cs : List Char) : Prop := cs.take 9 = assetPat

instance (cs : List Char) : Decidable (startsPat cs) :=
  inferInstanceAs (Decidable (cs.take 9 = assetPat))

def rewriteFuel (slug : List Char) : Nat → List Char → List Char
  | _, [] => []
  | 0, cs => cs
  | f+1, c :: cs =>
    if startsPat (c :: cs) ∧ ((c :: cs).drop 9).takeWhile nonWs ≠ [] then
      ("/posts/".data ++ slug ++ ('/' :: ((c :: cs).drop 9).takeWhile nonWs))
        ++ rewriteFuel slug f (((c :: cs).drop 9).dropWhile nonWs)
    else
      c :: rewriteFuel slug f cs

def rewriteAssetPaths (markdown slug : String) : String :=
  String.mk (rewriteFuel slug.data markdown.data.length markdown.data)

/-- Substring occurrence test at the character level, used to state the
containment claims about rewritten bodies. -/
def containsSeg (pat : List Char) : List Char → Bool
  | [] => pat.isEmpty
  | c :: cs => ((c :: cs).take pat.length == pat) || containsSeg pat cs

def strContains (needle hay : String) : Bool := containsSeg needle.data hay.data

lemma assetPat_nonWs : ∀ c ∈ assetPat, nonWs c = true := by decide

lemma rewriteFuel_nil (slug : List Char) (f : Nat) : rewriteFuel slug f [] = [] := by
  cases f <;> rfl

lemma rewriteFuel_fuel (slug : List Char) :
    ∀ f g cs, cs.length ≤ f → cs.length ≤ g →
      rewriteFuel slug f cs = rewriteFuel slug g cs := by
  intro f
  induction f with
  | zero =>
    intro g cs hf _
    have : cs = [] := List.length_eq_zero.mp (Nat.le_zero.mp hf)
    subst this
    simp [rewriteFuel_nil]
  | succ f ih =>
    intro g cs hf hg
    match cs with
    | [] => simp [rewriteFuel_nil]
    | c :: cs' =>
      match g with
      | 0 => exact absurd hg (by simp)
      | g' + 1 =>
        simp only [rewriteFuel]
        by_cases hP : startsPat (c :: cs') ∧ ((c :: cs').drop 9).takeWhile nonWs ≠ []
        · rw [if_pos hP, if_pos hP]
          have hsplit := List.takeWhile_append_dropWhile nonWs ((c :: cs').drop 9)
          have hlen : (((c :: cs').drop 9).dropWhile nonWs).length ≤ ((c :: cs').drop 9).length := by
            have := congrArg List.length hsplit
            simp only [List.length_append] at this
            omega
          have hdrop : ((c :: cs').drop 9).length = (c :: cs').length - 9 :=
            List.length_drop 9 (c :: cs')
          have hlc : (c :: cs').length = cs'.length + 1 := by simp
          have h1 : (((c :: cs').drop 9).dropWhile nonWs).length ≤ f := by omega
          have h2 : (((c :: cs').drop 9).dropWhile nonWs).length ≤ g' := by omega
          rw [ih g' _ h1 h2]
        · rw [if_neg hP, if_neg hP]
          have hlc : (c :: cs').length = cs'.length + 1 := by simp
          rw [ih g' cs' (by omega) (by omega)]

lemma rewriteFuel_step_pos (slug : List Char) (g : Nat) (l : List Char) (hl : l ≠ [])
    (hP : startsPat l ∧ (l.drop 9).takeWhile nonWs ≠ []) :
    rewriteFuel slug (g + 1) l =
      ("/posts/".data ++ slug ++ ('/' :: (l.drop 9).takeWhile nonWs))
        ++ rewriteFuel slug g ((l.drop 9).dropWhile nonWs) := by
  obtain ⟨c, cs, rfl⟩ : ∃ c cs, l = c :: cs := by
    cases l with
    | nil => exact absurd rfl hl
    | cons c cs => exact ⟨c, cs, rfl⟩
  simp only [rewriteFuel]
  rw [if_pos hP]

lemma rewriteFuel_step_neg (slug : List Char) (g : Nat) (c : Char) (cs : List Char)
    (hP : ¬(startsPat (c :: cs) ∧ ((c :: cs).drop 9).takeWhile nonWs ≠ [])) :
    rewriteFuel slug (g + 1) (c :: cs) = c :: rewriteFuel slug g cs := by
  simp only [rewriteFuel]
  rw [if_neg hP]

lemma startsPat_len {l : List Char} (h : startsPat l) : 9 ≤ l.length := by
  have h1 : (l.take 9).length = min 9 l.length := List.length_take 9 l
  have h2 : (l.take 9).length = 9 := by
    rw [show l.take 9 = assetPat from h]; rfl
  omega

lemma takeWhile_append_of_exists {p : Char → Bool} :
    ∀ (A B : List Char), (∃ x ∈ A, p x = false) →
      (A ++ B).takeWhile p = A.takeWhile p := by
  intro A
  induction A with
  | nil => intro B h; simp at h
  | cons a A' ih =>
    intro B h
    by_cases pa : p a
    · simp only [List.cons_append, List.takeWhile_cons, pa, if_true]
      obtain ⟨x, hx, hpx⟩ := h
      rcases List.mem_cons.mp hx with rfl | hx'
      · rw [pa] at hpx; exact absurd hpx (by simp)
      · rw [ih B ⟨x, hx', hpx⟩]
    · simp only [List.cons_append, List.takeWhile_cons,
        Bool.not_eq_true] at pa ⊢
      rw [pa]
      simp

lemma dropWhile_append_of_exists {p : Char → Bool} :
    ∀ (A B : List Char), (∃ x ∈ A, p x = false) →
      (A ++ B).dropWhile p = A.dropWhile p ++ B := by
  intro A
  induction A with
  | nil => intro B h; simp at h
  | cons a A' ih =>
    intro B h
    by_cases pa : p a
    · simp only [List.cons_append, List.dropWhile_cons, pa, if_true]
      obtain ⟨x, hx, hpx⟩ := h
      rcases List.mem_cons.mp hx with rfl | hx'
      · rw [pa] at hpx; exact absurd hpx (by simp)
      · exact ih B ⟨x, hx', hpx⟩
    · simp only [List.cons_append, List.dropWhile_cons,
        Bool.not_eq_true] at pa ⊢
      rw [pa]
      simp

lemma dropWhile_concat_of_neg {p : Char → Bool} {w : Char} (hw : p w = false) :
    ∀ l : List Char, (l ++ [w]).dropWhile p = l.dropWhile p ++ [w] := by
  intro l
  induction l with
  | nil => simp [List.dropWhile_cons, hw]
  | cons a l' ih =>
    by_cases pa : p a
    · simp only [List.cons_append, List.dropWhile_cons, pa, if_true]
      exact ih
    · simp only [List.cons_append, List.dropWhile_cons,
        Bool.not_eq_true] at pa ⊢
      rw [pa]
      simp

/-- A list ending in a whitespace character (or empty). Matches in the JS
regex can never cross such a boundary, because every character of the match
is non-whitespace. -/
def endsWs (l : List Char) : Prop :=
  l = [] ∨ ∃ l0 w, l = l0 ++ [w] ∧ isJsSpace w = true

lemma rewriteFuel_append (slug : List Char) :
    ∀ f l1 l2, (l1 ++ l2).length ≤ f → endsWs l1 →
      rewriteFuel slug f (l1 ++ l2)
        = rewriteFuel slug f l1 ++ rewriteFuel slug f l2 := by
  intro f
  induction f with
  | zero =>
    intro l1 l2 hf _
    have h0 : (l1 ++ l2).length = 0 := Nat.le_zero.mp hf
    rw [List.length_append] at h0
    have h1 : l1 = [] := List.length_eq_zero.mp (by omega)
    have h2 : l2 = [] := List.length_eq_zero.mp (by omega)
    subst h1; subst h2
    simp [rewriteFuel_nil]
  | succ g ih =>
    intro l1 l2 hf hends
    rcases hends with rfl | ⟨l0, w, hl1, hw⟩
    · simp [rewriteFuel_nil]
    · have hne : l1 ≠ [] := by
        rw [hl1]; intro hc
        have := congrArg List.length hc
        simp at this
      have hneL : l1 ++ l2 ≠ [] := fun hc => hne (List.append_eq_nil.mp hc).1
      have hwmem : w ∈ l1 := by rw [hl1]; exact List.mem_append_right _ (by simp)
      have hnonws_w : nonWs w = false := by simp [nonWs, hw]
      have htot : l1.length + l2.length ≤ g + 1 := by
        rw [← List.length_append]; exact hf
      by_cases hP : startsPat (l1 ++ l2) ∧ ((l1 ++ l2).drop 9).takeWhile nonWs ≠ []
      · -- the match at the head lies entirely inside l1
        have hlen10 : 10 ≤ l1.length := by
          by_contra hlt
          push_neg at hlt
          have hle9 : l1.length ≤ 9 := by omega
          have htake : (l1 ++ l2).take 9 = l1 ++ l2.take (9 - l1.length) := by
            rw [List.take_append_eq_append_take, List.take_of_length_le hle9]
          have hpat : assetPat = l1 ++ l2.take (9 - l1.length) := by
            rw [← show (l1 ++ l2).take 9 = assetPat from hP.1, htake]
          have hmem : w ∈ assetPat := by
            rw [hpat]; exact List.mem_append_left _ hwmem
          have := assetPat_nonWs w hmem
          rw [hnonws_w] at this
          exact absurd this (by simp)
        have h9 : 9 ≤ l1.length := by omega
        have hstarts1 : startsPat l1 := by
          show l1.take 9 = assetPat
          rw [← @List.take_append_of_le_length Char l1 l2 9 h9]
          exact hP.1
        have hdropsplit : (l1 ++ l2).drop 9 = l1.drop 9 ++ l2 :=
          List.drop_append_of_le_length h9
        have hl0len : 9 ≤ l0.length := by
          have := congrArg List.length hl1
          simp at this
          omega
        have hAform : l1.drop 9 = l0.drop 9 ++ [w] := by
          rw [hl1, List.drop_append_of_le_length hl0len]
        have hAex : ∃ x ∈ l1.drop 9, nonWs x = false :=
          ⟨w, by rw [hAform]; exact List.mem_append_right _ (by simp), hnonws_w⟩
        have htwA : ((l1 ++ l2).drop 9).takeWhile nonWs = (l1.drop 9).takeWhile nonWs := by
          rw [hdropsplit]; exact takeWhile_append_of_exists _ l2 hAex
        have hdwA : ((l1 ++ l2).drop 9).dropWhile nonWs
            = (l1.drop 9).dropWhile nonWs ++ l2 := by
          rw [hdropsplit]; exact dropWhile_append_of_exists _ l2 hAex
        have hP1 : startsPat l1 ∧ (l1.drop 9).takeWhile nonWs ≠ [] :=
          ⟨hstarts1, by rw [← htwA]; exact hP.2⟩
        rw [rewriteFuel_step_pos slug g (l1 ++ l2) hneL hP,
          rewriteFuel_step_pos slug g l1 hne hP1, htwA, hdwA]
        have hND := congrArg List.length (List.takeWhile_append_dropWhile nonWs (l1.drop 9))
        rw [List.length_append] at hND
        have hNlen : 1 ≤ ((l1.drop 9).takeWhile nonWs).length := by
          cases hh : (l1.drop 9).takeWhile nonWs with
          | nil => exact absurd hh hP1.2
          | cons y ys => simp
        have hAlen : (l1.drop 9).length = l1.length - 9 := List.length_drop 9 l1
        have hDlen : ((l1.drop 9).dropWhile nonWs ++ l2).length ≤ g := by
          rw [List.length_append]; omega
        have hD_endsWs : endsWs ((l1.drop 9).dropWhile nonWs) :=
          Or.inr ⟨(l0.drop 9).dropWhile nonWs, w,
            by rw [hAform]; exact dropWhile_concat_of_neg hnonws_w _, hw⟩
        rw [ih _ l2 hDlen hD_endsWs,
          rewriteFuel_fuel slug (g + 1) g l2 (by omega) (by omega)]
        simp [List.append_assoc]
      · -- no match at the head: emit one character on both sides
        have hP1 : ¬(startsPat l1 ∧ (l1.drop 9).takeWhile nonWs ≠ []) := by
          rintro ⟨hs1, hn1⟩
          apply hP
          have h9 : 9 ≤ l1.length := startsPat_len hs1
          refine ⟨?_, ?_⟩
          · show (l1 ++ l2).take 9 = assetPat
            rw [List.take_append_of_le_length h9]
            exact hs1
          · rw [List.drop_append_of_le_length h9]
            cases hA : l1.drop 9 with
            | nil => rw [hA] at hn1; simp at hn1
            | cons a A' =>
              rw [hA, List.takeWhile_cons] at hn1
              by_cases pa : nonWs a
              · simp only [List.cons_append, List.takeWhile_cons, pa, if_true]
                simp
              · rw [if_neg pa] at hn1
                exact absurd rfl hn1
        obtain ⟨c, cs, rfl⟩ : ∃ c cs, l1 = c :: cs := by
          cases l1 with
          | nil => exact absurd rfl hne
          | cons c cs => exact ⟨c, cs, rfl⟩
        rw [List.cons_append] at hP ⊢
        rw [rewriteFuel_step_neg slug g c (cs ++ l2) (by rw [← List.cons_append]; exact hP),
          rewriteFuel_step_neg slug g c cs hP1, List.cons_append]
        by_cases hcs : cs = []
        · subst hcs
          have hfl : rewriteFuel slug g l2 = rewriteFuel slug (g + 1) l2 :=
            rewriteFuel_fuel slug g (g + 1) l2 (by simp at htot; omega) (by simp at htot; omega)
          simp only [List.nil_append, rewriteFuel_nil, hfl]
        · have hendscs : endsWs cs := by
            right
            cases l0 with
            | nil =>
              exfalso
              have : c :: cs = [w] := by rw [hl1]; rfl
              have := congrArg List.length this
              simp at this
              exact hcs this
            | cons x l0' =>
              refine ⟨l0', w, ?_, hw⟩
              have : c :: cs = x :: (l0' ++ [w]) := by rw [hl1]; rfl
              exact (List.cons.injEq _ _ _ _ ▸ this).2
          have hlcs : (cs ++ l2).length ≤ g := by
            have := congrArg List.length hl1
            simp at this htot ⊢
            omega
          rw [ih cs l2 hlcs hendscs,
            rewriteFuel_fuel slug (g + 1) g l2 (by simp at htot ⊢; omega) (by simp at htot ⊢; omega)]

lemma containsSeg_append_of_right (pat : List Char) :
    ∀ (A B : List Char), containsSeg pat B = true → containsSeg pat (A ++ B) = true := by
  intro A
  induction A with
  | nil => intro B h; simpa using h
  | cons a A' ih =>
    intro B h
    simp only [List.cons_append, containsSeg, Bool.or_eq_true]
    exact Or.inr (ih B h)

lemma containsSeg_of_self_append (pat : List Char) :
    ∀ (B : List Char), containsSeg pat (pat ++ B) = true := by
  intro B
  cases hp : pat with
  | nil =>
    cases B with
    | nil => rfl
    | cons b B' => simp [containsSeg]
  | cons p ps =>
    simp only [List.cons_append, containsSeg, Bool.or_eq_true]
    left
    show ((p :: (ps ++ B)).take (p :: ps).length == p :: ps) = true
    rw [show (p :: ps).length = ps.length + 1 from rfl, List.take_succ_cons,
      List.take_left ps B]
    simp

lemma rewriteFuel_pattern_head (slug suffix : List Char) (g : Nat) :
    ∃ Z, rewriteFuel slug (g + 1) ("./assets/diagram.png".data ++ suffix)
      = ("/posts/".data ++ slug ++ ('/' :: "diagram.png".data)) ++ Z := by
  have hlen20 : ("./assets/diagram.png".data).length = 20 := rfl
  have hne : "./assets/diagram.png".data ++ suffix ≠ [] := by
    intro hc
    have := congrArg List.length hc
    rw [List.length_append, hlen20] at this
    simp at this
  have h920 : (9 : Nat) ≤ ("./assets/diagram.png".data).length := by rw [hlen20]; omega
  have hstarts : startsPat ("./assets/diagram.png".data ++ suffix) := by
    show ("./assets/diagram.png".data ++ suffix).take 9 = assetPat
    rw [List.take_append_of_le_length h920]
    rfl
  have hdrop : ("./assets/diagram.png".data ++ suffix).drop 9
      = "diagram.png".data ++ suffix := by
    rw [List.drop_append_of_le_length h920]
    rfl
  have hallnonws : ∀ a ∈ "diagram.png".data, nonWs a := by decide
  have htw : ("diagram.png".data ++ suffix).takeWhile nonWs
      = "diagram.png".data ++ suffix.takeWhile nonWs :=
    List.takeWhile_append_of_pos hallnonws
  have hP : startsPat ("./assets/diagram.png".data ++ suffix)
      ∧ (("./assets/diagram.png".data ++ suffix).drop 9).takeWhile nonWs ≠ [] := by
    refine ⟨hstarts, ?_⟩
    rw [hdrop, htw]
    intro hc
    have := congrArg List.length hc
    rw [List.length_append] at this
    simp [show ("diagram.png".data).length = 11 from rfl] at this
  refine ⟨suffix.takeWhile nonWs
      ++ rewriteFuel slug g ((("./assets/diagram.png".data ++ suffix).drop 9).dropWhile nonWs), ?_⟩
  rw [rewriteFuel_step_pos slug g _ hne hP, hdrop, htw]
  simp [List.append_assoc]

/-! ## Claims about the asset-path rewrite -/

/-- Claim C6, counterexample: the claim concludes that any body containing
the substring dot-slash-assets-slash-diagram.png is rewritten to a body
containing slash-posts-slash-slug-slash-diagram.png. When the occurrence is
glued to a preceding non-whitespace run that itself starts an earlier match,
the greedy capture swallows the whole run: the body
"./assets/x./assets/diagram.png" contains "./assets/diagram.png", yet the
rewritten body for slug "s" is "/posts/s/x./assets/diagram.png", which does
not contain "/posts/s/diagram.png". -/
theorem c6_counterexample :
    strContains "./assets/diagram.png" "./assets/x./assets/diagram.png" = true
      ∧ rewriteAssetPaths "./assets/x./assets/diagram.png" "s"
          = "/posts/s/x./assets/diagram.png"
      ∧ strContains "/posts/s/diagram.png"
          (rewriteAssetPaths "./assets/x./assets/diagram.png" "s") = false := by
  refine ⟨by decide, by decide, by decide⟩

/-- Claim C6, amended: the rewrite replaces every occurrence of the relative
asset pattern (nine pattern characters followed by a maximal nonempty run of
non-whitespace characters) with the absolute site-rooted path. In particular,
whenever the occurrence of ./assets/diagram.png starts a non-whitespace run —
the preceding character, if any, is whitespace — the rewritten body contains
/posts/slug/diagram.png, for every slug and every suffix. -/
theorem c6_amended_rewrite (slug pre suf : String)
    (h : pre = "" ∨ ∃ p0 w, pre.data = p0 ++ [w] ∧ isJsSpace w = true) :
    strContains ("/posts/" ++ slug ++ "/diagram.png")
      (rewriteAssetPaths (pre ++ "./assets/diagram.png" ++ suf) slug) = true := by
  have hends : endsWs pre.data := by
    rcases h with h0 | ⟨p0, w, hp, hw⟩
    · left; rw [h0]
    · right; exact ⟨p0, w, hp, hw⟩
  show containsSeg ("/posts/" ++ slug ++ "/diagram.png").data
      (rewriteFuel slug.data (pre ++ "./assets/diagram.png" ++ suf).data.length
        (pre ++ "./assets/diagram.png" ++ suf).data) = true
  have hdata : (pre ++ "./assets/diagram.png" ++ suf).data
      = pre.data ++ ("./assets/diagram.png".data ++ suf.data) := by
    simp [List.append_assoc]
  rw [hdata, rewriteFuel_append slug.data _ pre.data _ (le_refl _) hends]
  set f := (pre.data ++ ("./assets/diagram.png".data ++ suf.data)).length with hfdef
  obtain ⟨g, hg⟩ : ∃ g, f = g + 1 := by
    refine ⟨f - 1, ?_⟩
    have : 20 ≤ f := by
      rw [hfdef, List.length_append, List.length_append,
        show ("./assets/diagram.png".data).length = 20 from rfl]
      omega
    omega
  rw [hg]
  obtain ⟨Z, hZ⟩ := rewriteFuel_pattern_head slug.data suf.data g
  rw [hZ]
  have htgt : ("/posts/" ++ slug ++ "/diagram.png").data
      = "/posts/".data ++ slug.data ++ ('/' :: "diagram.png".data) := rfl
  rw [htgt]
  exact containsSeg_append_of_right _ _ _
    (containsSeg_of_self_append ("/posts/".data ++ slug.data ++ ('/' :: "diagram.png".data)) Z)

/-- Claim C6, witness: the amended theorem applied at a concrete input whose
occurrence starts the body, with slug "s" and empty suffix. -/
theorem c6_amended_rewrite_witness :
    strContains ("/posts/" ++ "s" ++ "/diagram.png")
      (rewriteAssetPaths ("" ++ "./assets/diagram.png" ++ "") "s") = true :=
  c6_amended_rewrite "s" "" "" (Or.inl rfl)

/-! ## Content sync (scripts/sync-posts-to-docusaurus.mjs)

The sync job reads the immediate subdirectories of the posts root, loads and
validates `meta.json`, skips posts whose status is not "published", and for
each published post writes a blog markdown file named date-slug.md and
recreates a per-slug static asset directory from the post's `assets` tree.
File systems are modelled as maps: `blogDir` from file name to content and
`staticPosts` from slug to asset tree. An absent posts root is `none` (the
ENOENT branch returning zero posts); a missing or unparseable `meta.json`,
missing `README.md` or missing `assets` directory is a `none` field of
`PostDir`, making the corresponding read throw. Errors propagate as
`Except.error`, which the driver `sync().catch` turns into exit code 1, so a
`some` error component models a non-zero process exit. -/

def isValidDate (dateString : String) : Bool :=
  match dateString.data with
  | [y1, y2, y3, y4, '-', m1, m2, '-', d1, d2] =>
    y1.isDigit && y2.isDigit && y3.isDigit && y4.isDigit &&
    m1.isDigit && m2.isDigit && d1.isDigit && d2.isDigit
  | _ => false

mutual
inductive Fent where
  | file (content : String)
  | dir (entries : FentList)
deriving DecidableEq, Repr
inductive FentList where
  | nil
  | cons (name : String) (entry : Fent) (rest : FentList)
deriving DecidableEq, Repr
end

mutual
/-- Model of the recursive `copyDirectory`: copying into a freshly created
target reproduces each file and recurses into each directory. -/
def copyDirectory : FentList → FentList
  | .nil => .nil
  | .cons n e rest => .cons n (copyFent e) (copyDirectory rest)
def copyFent : Fent → Fent
  | .file c => .file c
  | .dir es => .dir (copyDirectory es)
end

mutual
lemma copyDirectory_id : ∀ es, copyDirectory es = es
  | .nil => rfl
  | .cons n e rest => by rw [copyDirectory, copyFent_id e, copyDirectory_id rest]
lemma copyFent_id : ∀ e, copyFent e = e
  | .file c => rfl
  | .dir es => by rw [copyFent, copyDirectory_id es]
end

structure MetaJson where
  title : Option String
  slug : Option String
  date : Option String
  tags : Option (List String)
  status : Option String
deriving DecidableEq, Repr

structure PostDir where
  name : String
  meta : Option MetaJson
  readme : Option String
  assets : Option FentList
deriving DecidableEq, Repr

structure Post where
  title : String
  slug : String
  date : String
  tags : List String
  readme : String
  assets : Option FentList
deriving DecidableEq, Repr

/-- JS truthiness of an optional metadata string: absent and the empty
string are falsy, so the `!meta.title` checks reject both. -/
def truthy : Option String → Bool
  | none => false
  | some s => s != ""

def validateMeta (m : MetaJson) : Bool :=
  truthy m.title && truthy m.slug && truthy m.date && m.tags.isSome

def readPost (d : PostDir) : Except String (Option Post) :=
  match d.meta with
  | none => .error ("Failed to read or parse meta.json in " ++ d.name)
  | some m =>
    if m.status = some "published" then
      if validateMeta m then
        if isValidDate (m.date.getD "") then
          match d.readme with
          | none => .error ("Failed to read README.md in " ++ d.name)
          | some r =>
            .ok (some { title := m.title.getD "", slug := m.slug.getD "",
                        date := m.date.getD "", tags := m.tags.getD [],
                        readme := r, assets := d.assets })
        else .error ("Invalid date format in " ++ d.name ++ ". Expected YYYY-MM-DD.")
      else .error ("Invalid meta.json in " ++ d.name ++ ": expected title, slug, date, tags")
    else .ok none

def readPublishedPosts : List PostDir → Except String (List Post)
  | [] => .ok []
  | d :: ds => do
    let p? ← readPost d
    let rest ← readPublishedPosts ds
    match p? with
    | none => pure rest
    | some p => pure (p :: rest)

structure SyncState where
  blogDir : String → Option String
  staticPosts : String → Option FentList

def setMap {α : Type} (m : String → Option α) (k : String) (v : Option α) :
    String → Option α :=
  fun x => if x = k then v else m x

def Post.filename (p : Post) : String := p.date ++ "-" ++ p.slug ++ ".md"

def Post.output (p : Post) : String :=
  buildFrontmatter p.title p.slug p.date p.tags ++ rewriteAssetPaths p.readme p.slug ++ "\n"

/-- One iteration of the sync loop: write the blog file, clear and recreate
the per-slug static directory, then recursively copy the assets; a missing
assets directory makes the recursive copy throw after the target was
cleared. -/
def applyPost (s : SyncState) (p : Post) : SyncState × Option String :=
  match p.assets with
  | none =>
    ({ blogDir := setMap s.blogDir p.filename (some p.output),
       staticPosts := setMap s.staticPosts p.slug (some .nil) },
     some ("ENOENT: no assets directory for " ++ p.slug))
  | some t =>
    ({ blogDir := setMap s.blogDir p.filename (some p.output),
       staticPosts := setMap (setMap s.staticPosts p.slug (some .nil)) p.slug
         (some (copyDirectory t)) },
     none)

def runPosts (s : SyncState) : List Post → SyncState × Option String
  | [] => (s, none)
  | p :: ps =>
    match applyPost s p with
    | (s', none) => runPosts s' ps
    | (s', some e) => (s', some e)

/-- The whole sync run: clear and recreate the blog output directory, ensure
the static posts root exists, read and validate the published posts, then
process them in order. The second component is the error that reaches
`sync().catch` (exit code 1), `none` on success. -/
def sync (postsRoot : Option (List PostDir)) (init : SyncState) :
    SyncState × Option String :=
  match postsRoot with
  | none => ({ blogDir := fun _ => none, staticPosts := init.staticPosts }, none)
  | some dirs =>
    match readPublishedPosts dirs with
    | .error e => ({ blogDir := fun _ => none, staticPosts := init.staticPosts }, some e)
    | .ok posts =>
      runPosts { blogDir := fun _ => none, staticPosts := init.staticPosts } posts

/-- A directory whose post is published but fails the metadata validation of
`readPublishedPosts` (missing or falsy required field, tags not an array, or
malformed date). -/
def publishedInvalid (d : PostDir) : Bool :=
  match d.meta with
  | none => false
  | some m =>
    m.status == some "published"
      && (!(validateMeta m) || !(isValidDate (m.date.getD "")))

/-- The failure condition of claim C3: a published post missing `tags` or
carrying the malformed date 2026-2-9. -/
def c3Bad (d : PostDir) : Bool :=
  match d.meta with
  | none => false
  | some m =>
    m.status == some "published" && (m.tags.isNone || m.date == some "2026-2-9")

/-- A published post with valid metadata and readable body whose canonical
folder has no assets subdirectory. -/
def publishedValidNoAssets (d : PostDir) : Bool :=
  match d.meta with
  | none => false
  | some m =>
    m.status == some "published" && validateMeta m
      && isValidDate (m.date.getD "") && d.readme.isSome && d.assets.isNone

/-- A directory holding a published post that would write the given blog
file name or the given static slug. -/
def clashes (d : PostDir) (fname slugv : String) : Bool :=
  match d.meta with
  | none => false
  | some m =>
    m.status == some "published"
      && (m.slug.getD "" == slugv
          || (m.date.getD "" ++ "-" ++ m.slug.getD "" ++ ".md") == fname)

def blogAfter : List Post → (String → Option String) → (String → Option String)
  | [], m => m
  | p :: ps, m => blogAfter ps (setMap m p.filename (some p.output))

def staticAfter : List Post → (String → Option FentList) → (String → Option FentList)
  | [], m => m
  | p :: ps, m =>
    staticAfter ps (setMap m p.slug (some (copyDirectory (p.assets.getD .nil))))

/-- The last post of the list that writes the given slug, as the value its
copy leaves in the static map. -/
def lastW : List Post → String → Option FentList
  | [], _ => none
  | p :: ps, sl =>
    match lastW ps sl with
    | some v => some v
    | none => if sl = p.slug then some (copyDirectory (p.assets.getD .nil)) else none

lemma truthy_eq {o : Option String} (h : truthy o = true) :
    o = some (o.getD "") := by
  match o with
  | none => simp [truthy] at h
  | some s => rfl

lemma readPost_error_of_publishedInvalid {d : PostDir}
    (h : publishedInvalid d = true) : ∃ e, readPost d = .error e := by
  unfold publishedInvalid at h
  match hd : d.meta with
  | none => rw [hd] at h; simp at h
  | some m =>
    rw [hd] at h
    simp only [Bool.and_eq_true, beq_iff_eq, Bool.or_eq_true, Bool.not_eq_true'] at h
    obtain ⟨hpub, hbad⟩ := h
    unfold readPost
    rw [hd]
    dsimp only
    rw [if_pos hpub]
    by_cases hv : validateMeta m = true
    · rcases hbad with hv' | hdt
      · rw [hv] at hv'; exact absurd hv' (by simp)
      · rw [if_pos hv, if_neg (by simp [hdt])]
        exact ⟨_, rfl⟩
    · rw [if_neg hv]
      exact ⟨_, rfl⟩

lemma readPublishedPosts_error_of_exists :
    ∀ (dirs : List PostDir), (∃ d ∈ dirs, publishedInvalid d = true) →
      ∃ e, readPublishedPosts dirs = .error e := by
  intro dirs
  induction dirs with
  | nil => rintro ⟨d, hd, _⟩; simp at hd
  | cons d0 ds ih =>
    rintro ⟨d, hd, hbad⟩
    rcases List.mem_cons.mp hd with rfl | hmem
    · obtain ⟨e, he⟩ := readPost_error_of_publishedInvalid hbad
      exact ⟨e, by simp [readPublishedPosts, he, Bind.bind, Except.bind]⟩
    · cases hrp : readPost d0 with
      | error e => exact ⟨e, by simp [readPublishedPosts, hrp, Bind.bind, Except.bind]⟩
      | ok p? =>
        obtain ⟨e, he⟩ := ih ⟨d, hmem, hbad⟩
        exact ⟨e, by simp [readPublishedPosts, hrp, he, Bind.bind, Except.bind]⟩

lemma readPost_ok_some {d : PostDir} {q : Post} (h : readPost d = .ok (some q)) :
    ∃ m, d.meta = some m ∧ m.status = some "published" ∧ validateMeta m = true
      ∧ isValidDate (m.date.getD "") = true
      ∧ q.slug = m.slug.getD "" ∧ q.date = m.date.getD ""
      ∧ d.readme = some q.readme ∧ q.assets = d.assets := by
  unfold readPost at h
  match hd : d.meta with
  | none =>
    rw [hd] at h
    dsimp only at h
    exact absurd h (by simp)
  | some m =>
    rw [hd] at h
    dsimp only at h
    by_cases hpub : m.status = some "published"
    · rw [if_pos hpub] at h
      by_cases hv : validateMeta m = true
      · rw [if_pos hv] at h
        by_cases hdt : isValidDate (m.date.getD "") = true
        · rw [if_pos hdt] at h
          match hr : d.readme with
          | none =>
            rw [hr] at h
            dsimp only at h
            exact absurd h (by simp)
          | some r =>
            rw [hr] at h
            dsimp only at h
            simp only [Except.ok.injEq, Option.some.injEq] at h
            refine ⟨m, rfl, hpub, hv, hdt, ?_, ?_, ?_, ?_⟩ <;> rw [← h]
        · rw [if_neg hdt] at h; exact absurd h (by simp)
      · rw [if_neg hv] at h; exact absurd h (by simp)
    · rw [if_neg hpub] at h; exact absurd h (by simp)

lemma readPost_ok_of_pvna {d : PostDir} (h : publishedValidNoAssets d = true) :
    ∃ q : Post, readPost d = .ok (some q) ∧ q.assets = none := by
  unfold publishedValidNoAssets at h
  match hd : d.meta with
  | none => rw [hd] at h; simp at h
  | some m =>
    rw [hd] at h
    simp only [Bool.and_eq_true, beq_iff_eq, Option.isSome_iff_exists,
      Option.isNone_iff_eq_none] at h
    obtain ⟨⟨⟨⟨hpub, hv⟩, hdt⟩, r, hr⟩, hassets⟩ := h
    refine ⟨{ title := m.title.getD "", slug := m.slug.getD "",
              date := m.date.getD "", tags := m.tags.getD [],
              readme := r, assets := d.assets }, ?_, by rw [hassets]⟩
    unfold readPost
    rw [hd]
    dsimp only
    rw [if_pos hpub, if_pos hv, if_pos hdt, hr]

lemma readPublishedPosts_cons (d0 : PostDir) (ds : List PostDir) :
    readPublishedPosts (d0 :: ds)
      = Except.bind (readPost d0) (fun p? =>
          Except.bind (readPublishedPosts ds) (fun rest =>
            match p? with
            | none => .ok rest
            | some p => .ok (p :: rest))) := rfl

lemma except_bind_ok {α β : Type} (a : α) (f : α → Except String β) :
    Except.bind (Except.ok a) f = f a := rfl

lemma except_bind_error {α β : Type} (e : String) (f : α → Except String β) :
    Except.bind (Except.error e : Except String α) f = Except.error e := rfl

lemma readPublishedPosts_mem :
    ∀ (dirs : List PostDir) (posts : List Post) (d : PostDir) (q : Post),
      readPublishedPosts dirs = .ok posts → d ∈ dirs →
      readPost d = .ok (some q) → q ∈ posts := by
  intro dirs
  induction dirs with
  | nil => intro posts d q _ hd _; simp at hd
  | cons d0 ds ih =>
    intro posts d q hok hd hq
    cases hrp : readPost d0 with
    | error e =>
      rw [readPublishedPosts_cons, hrp, except_bind_error] at hok
      exact absurd hok (by simp)
    | ok p? =>
      cases hds : readPublishedPosts ds with
      | error e =>
        rw [readPublishedPosts_cons, hrp, except_bind_ok, hds, except_bind_error] at hok
        exact absurd hok (by simp)
      | ok rest =>
        rw [readPublishedPosts_cons, hrp, except_bind_ok, hds, except_bind_ok] at hok
        cases p? with
        | none =>
          dsimp only at hok
          have hposts : rest = posts := by
            simpa using hok
          rcases List.mem_cons.mp hd with rfl | hmem
          · rw [hq] at hrp
            exact absurd hrp (by simp)
          · rw [← hposts]
            exact ih rest d q hds hmem hq
        | some q0 =>
          dsimp only at hok
          have hposts : q0 :: rest = posts := by
            simpa using hok
          rcases List.mem_cons.mp hd with rfl | hmem
          · rw [hq] at hrp
            have : q = q0 := by
              simpa using hrp
            rw [← hposts, this]
            simp
          · rw [← hposts]
            exact List.mem_cons_of_mem _ (ih rest d q hds hmem hq)

lemma readPublishedPosts_sound :
    ∀ (dirs : List PostDir) (posts : List Post),
      readPublishedPosts dirs = .ok posts → ∀ p ∈ posts,
      ∃ d ∈ dirs, ∃ m, d.meta = some m ∧ m.status = some "published"
        ∧ p.slug = m.slug.getD "" ∧ p.date = m.date.getD "" := by
  intro dirs
  induction dirs with
  | nil =>
    intro posts h p hp
    rw [readPublishedPosts] at h
    cases h
    simp at hp
  | cons d0 ds ih =>
    intro posts h p hp
    cases hrp : readPost d0 with
    | error e =>
      rw [readPublishedPosts_cons, hrp, except_bind_error] at h
      exact absurd h (by simp)
    | ok p? =>
      cases hds : readPublishedPosts ds with
      | error e =>
        rw [readPublishedPosts_cons, hrp, except_bind_ok, hds, except_bind_error] at h
        exact absurd h (by simp)
      | ok rest =>
        rw [readPublishedPosts_cons, hrp, except_bind_ok, hds, except_bind_ok] at h
        have hrest : ∀ p ∈ rest, ∃ d ∈ ds, ∃ m, d.meta = some m
            ∧ m.status = some "published"
            ∧ p.slug = m.slug.getD "" ∧ p.date = m.date.getD "" := fun p hp =>
          ih rest hds p hp
        cases p? with
        | none =>
          dsimp only at h
          have hposts : rest = posts := by simpa using h
          rw [← hposts] at hp
          obtain ⟨d, hd, m, hm⟩ := hrest p hp
          exact ⟨d, List.mem_cons_of_mem _ hd, m, hm⟩
        | some q =>
          dsimp only at h
          have hposts : q :: rest = posts := by simpa using h
          rw [← hposts] at hp
          rcases List.mem_cons.mp hp with rfl | hmem
          · obtain ⟨m, hm, hpub, _, _, hslug, hdate, _, _⟩ := readPost_ok_some hrp
            exact ⟨d0, List.mem_cons_self _ _, m, hm, hpub, hslug, hdate⟩
          · obtain ⟨d, hd, m, hm⟩ := hrest p hmem
            exact ⟨d, List.mem_cons_of_mem _ hd, m, hm⟩

lemma setMap_setMap {α : Type} (m : String → Option α) (k : String) (a b : Option α) :
    setMap (setMap m k a) k b = setMap m k b := by
  funext x
  unfold setMap
  by_cases hx : x = k <;> simp [hx]

lemma setMap_ne {α : Type} (m : String → Option α) (k x : String) (v : Option α)
    (h : x ≠ k) : setMap m k v x = m x := by
  unfold setMap
  rw [if_neg h]

lemma runPosts_blog_stable :
    ∀ (posts : List Post) (s : SyncState) (k : String),
      (∀ p ∈ posts, p.filename ≠ k) →
      ((runPosts s posts).1).blogDir k = s.blogDir k := by
  intro posts
  induction posts with
  | nil => intro s k _; rfl
  | cons p ps ih =>
    intro s k hk
    have hpk : k ≠ p.filename := fun hh => hk p (by simp) hh.symm
    cases hassets : p.assets with
    | none =>
      simp only [runPosts, applyPost, hassets]
      exact setMap_ne _ _ _ _ hpk
    | some t =>
      simp only [runPosts, applyPost, hassets]
      rw [ih _ k (fun q hq => hk q (by simp [hq]))]
      exact setMap_ne _ _ _ _ hpk

lemma runPosts_static_stable :
    ∀ (posts : List Post) (s : SyncState) (sl : String),
      (∀ p ∈ posts, p.slug ≠ sl) →
      ((runPosts s posts).1).staticPosts sl = s.staticPosts sl := by
  intro posts
  induction posts with
  | nil => intro s sl _; rfl
  | cons p ps ih =>
    intro s sl hk
    have hpk : sl ≠ p.slug := fun hh => hk p (by simp) hh.symm
    cases hassets : p.assets with
    | none =>
      simp only [runPosts, applyPost, hassets]
      exact setMap_ne _ _ _ _ hpk
    | some t =>
      simp only [runPosts, applyPost, hassets]
      rw [ih _ sl (fun q hq => hk q (by simp [hq]))]
      exact (setMap_ne _ _ _ _ hpk).trans (setMap_ne _ _ _ _ hpk)

lemma runPosts_error_of_missing :
    ∀ (posts : List Post) (s : SyncState),
      (∃ p ∈ posts, p.assets = none) →
      ((runPosts s posts).2).isSome = true := by
  intro posts
  induction posts with
  | nil => rintro s ⟨p, hp, _⟩; simp at hp
  | cons p ps ih =>
    rintro s ⟨p', hp', hpa⟩
    cases hassets : p.assets with
    | none => simp [runPosts, applyPost, hassets]
    | some t =>
      simp only [runPosts, applyPost, hassets]
      rcases List.mem_cons.mp hp' with rfl | hmem
      · rw [hassets] at hpa; exact absurd hpa (by simp)
      · exact ih _ ⟨p', hmem, hpa⟩

lemma runPosts_ok :
    ∀ (posts : List Post) (s : SyncState),
      (∀ p ∈ posts, p.assets.isSome = true) →
      runPosts s posts
        = ({ blogDir := blogAfter posts s.blogDir,
             staticPosts := staticAfter posts s.staticPosts }, none) := by
  intro posts
  induction posts with
  | nil => intro s _; rfl
  | cons p ps ih =>
    intro s hall
    obtain ⟨t, ht⟩ := Option.isSome_iff_exists.mp (hall p (by simp))
    simp only [runPosts, applyPost, ht]
    rw [ih _ (fun q hq => hall q (by simp [hq]))]
    simp only [blogAfter, staticAfter, ht, Option.getD_some, setMap_setMap]

lemma runPosts_ok_inv :
    ∀ (posts : List Post) (s s1 : SyncState),
      runPosts s posts = (s1, none) → ∀ p ∈ posts, p.assets.isSome = true := by
  intro posts
  induction posts with
  | nil => intro s s1 _ p hp; simp at hp
  | cons p ps ih =>
    intro s s1 h q hq
    cases hassets : p.assets with
    | none =>
      simp only [runPosts, applyPost, hassets] at h
      exact absurd (congrArg Prod.snd h) (by simp)
    | some t =>
      simp only [runPosts, applyPost, hassets] at h
      rcases List.mem_cons.mp hq with rfl | hmem
      · rw [hassets]; rfl
      · exact ih _ s1 h q hmem

lemma staticAfter_apply :
    ∀ (posts : List Post) (m : String → Option FentList) (sl : String),
      staticAfter posts m sl
        = (match lastW posts sl with
           | some v => some v
           | none => m sl) := by
  intro posts
  induction posts with
  | nil => intro m sl; rfl
  | cons p ps ih =>
    intro m sl
    simp only [staticAfter, lastW]
    rw [ih]
    cases hlw : lastW ps sl with
    | some v => rfl
    | none =>
      dsimp only
      unfold setMap
      by_cases hsl : sl = p.slug
      · simp [hsl]
      · simp [hsl]

lemma staticAfter_idem :
    ∀ (posts : List Post) (m : String → Option FentList),
      staticAfter posts (staticAfter posts m) = staticAfter posts m := by
  intro posts m
  funext sl
  rw [staticAfter_apply, staticAfter_apply]
  cases hlw : lastW posts sl with
  | some v => rfl
  | none => rfl

lemma c3Bad_publishedInvalid {d : PostDir} (h : c3Bad d = true) :
    publishedInvalid d = true := by
  unfold c3Bad at h
  unfold publishedInvalid
  match hd : d.meta with
  | none => rw [hd] at h; simp at h
  | some m =>
    rw [hd] at h
    dsimp only at h ⊢
    simp only [Bool.and_eq_true, Bool.or_eq_true, beq_iff_eq,
      Option.isNone_iff_eq_none] at h
    obtain ⟨hpub, hbad⟩ := h
    simp only [Bool.and_eq_true, Bool.or_eq_true, beq_iff_eq, Bool.not_eq_true']
    refine ⟨hpub, ?_⟩
    rcases hbad with htags | hdate
    · left
      unfold validateMeta
      rw [htags]
      simp
    · right
      rw [hdate]
      decide

/-! ## Claims about error handling of the sync run -/

/-- Claim C4: whenever any published post fails validation (required field
absent or falsy, tags not an array, or date not matching the fixed
YYYY-MM-DD pattern), reading the posts raises before the write loop starts,
so the whole run aborts with an error: no blog file is written for any post
of the run (the cleared blog directory stays empty) and no per-slug asset
directory is created or touched (the static map is exactly the initial
one). -/
theorem c4_validation_failure_aborts_run (dirs : List PostDir) (init : SyncState)
    (h : ∃ d ∈ dirs, publishedInvalid d = true) :
    ∃ e, sync (some dirs) init
      = ({ blogDir := fun _ => none, staticPosts := init.staticPosts }, some e) := by
  obtain ⟨e, he⟩ := readPublishedPosts_error_of_exists dirs h
  exact ⟨e, by simp [sync, he]⟩

/-- Claim C4, witness: a run over one published post with valid title, slug
and date but missing tags aborts with an error, writing nothing. -/
theorem c4_validation_failure_aborts_run_witness :
    ∃ e,
      sync
        (some
          [{ name := "p1",
             meta := some
               { title := some "T", slug := some "t", date := some "2026-02-09",
                 tags := none, status := some "published" },
             readme := some "body", assets := some FentList.nil }])
        { blogDir := fun _ => none, staticPosts := fun _ => none }
      = ({ blogDir := fun _ => none, staticPosts := fun _ => none }, some e) :=
  c4_validation_failure_aborts_run _ _ (by decide)

/-- Claim C3, counterexample: the claim says a failed run leaves every
previously generated output file present and unchanged. Starting from a
state where a prior successful run wrote the blog file 2026-01-01-old.md,
a run over a published post with date 2026-2-9 (invalid format) exits
non-zero, but the previously generated blog file is gone afterwards: the
script clears the blog directory before validating. -/
theorem c3_counterexample :
    ((fun k => if k = "2026-01-01-old.md" then some "old content" else none :
        String → Option String) "2026-01-01-old.md" = some "old content")
      ∧ (sync
          (some
            [{ name := "p1",
               meta := some
                 { title := some "T", slug := some "t", date := some "2026-2-9",
                   tags := some ([] : List String), status := some "published" },
               readme := some "body", assets := some FentList.nil }])
          { blogDir := fun k => if k = "2026-01-01-old.md" then some "old content" else none,
            staticPosts := fun _ => none }).2.isSome = true
      ∧ (sync
          (some
            [{ name := "p1",
               meta := some
                 { title := some "T", slug := some "t", date := some "2026-2-9",
                   tags := some ([] : List String), status := some "published" },
               readme := some "body", assets := some FentList.nil }])
          { blogDir := fun k => if k = "2026-01-01-old.md" then some "old content" else none,
            staticPosts := fun _ => none }).1.blogDir "2026-01-01-old.md" = none := by
  refine ⟨by decide, by decide, by decide⟩

/-- Claim C3, amended: a run over a posts root containing a published post
missing tags or with date 2026-2-9 exits non-zero, and the per-slug asset
trees written by a prior successful run are unchanged; however the blog
markdown directory is cleared at the start of the run, before validation,
so previously generated blog files are removed rather than preserved. -/
theorem c3_amended_failed_run (dirs : List PostDir) (init : SyncState)
    (h : ∃ d ∈ dirs, c3Bad d = true) :
    ∃ e, sync (some dirs) init
      = ({ blogDir := fun _ => none, staticPosts := init.staticPosts }, some e) := by
  obtain ⟨d, hd, hb⟩ := h
  obtain ⟨e, he⟩ :=
    readPublishedPosts_error_of_exists dirs ⟨d, hd, c3Bad_publishedInvalid hb⟩
  exact ⟨e, by simp [sync, he]⟩

/-- Claim C3, witness: the amended theorem applied to a run whose only post
is published with the malformed date 2026-2-9, starting from a state holding
a previously synced asset tree under slug old; the error is raised and the
static map is untouched. -/
theorem c3_amended_failed_run_witness :
    ∃ e,
      sync
        (some
          [{ name := "p1",
             meta := some
               { title := some "T", slug := some "t", date := some "2026-2-9",
                 tags := some ([] : List String), status := some "published" },
             readme := some "body", assets := some FentList.nil }])
        { blogDir := fun _ => none,
          staticPosts := fun sl => if sl = "old" then some FentList.nil else none }
      = ({ blogDir := fun _ => none,
           staticPosts := fun sl => if sl = "old" then some FentList.nil else none },
         some e) :=
  c3_amended_failed_run _ _ (by decide)

/-- Claim C7: a post whose status differs from the exact string "published"
is filtered out before validation, so a sync run — completed or not — writes
no blog markdown file under its date-slug name and neither creates nor
touches a per-slug asset directory for its slug, provided no published post
of the same run shares that file name or slug. -/
theorem c7_unpublished_never_written (dirs : List PostDir) (init : SyncState)
    (d : PostDir) (m : MetaJson)
    (_hd : d ∈ dirs) (_hm : d.meta = some m) (_hs : m.status ≠ some "published")
    (hnc : ∀ d' ∈ dirs,
      clashes d' (m.date.getD "" ++ "-" ++ m.slug.getD "" ++ ".md") (m.slug.getD "")
        = false) :
    ((sync (some dirs) init).1).blogDir
        (m.date.getD "" ++ "-" ++ m.slug.getD "" ++ ".md") = none
      ∧ ((sync (some dirs) init).1).staticPosts (m.slug.getD "")
          = init.staticPosts (m.slug.getD "") := by
  cases hrp : readPublishedPosts dirs with
  | error e =>
    constructor
    · simp [sync, hrp]
    · simp [sync, hrp]
  | ok posts =>
    have hchar := readPublishedPosts_sound dirs posts hrp
    have hclash : ∀ p ∈ posts,
        (m.date.getD "" ++ "-" ++ m.slug.getD "" ++ ".md" = p.filename
            ∨ m.slug.getD "" = p.slug) → False := by
      intro p hp hor
      obtain ⟨d', hd', m', hm', hpub, hslug, hdate⟩ := hchar p hp
      have hcl := hnc d' hd'
      have hcl' : clashes d' (m.date.getD "" ++ "-" ++ m.slug.getD "" ++ ".md")
          (m.slug.getD "") = true := by
        unfold clashes
        rw [hm']
        dsimp only
        simp only [Bool.and_eq_true, Bool.or_eq_true, beq_iff_eq]
        refine ⟨hpub, ?_⟩
        rcases hor with hfn | hsl
        · right
          rw [← hslug, ← hdate]
          rw [Post.filename] at hfn
          exact hfn.symm
        · left
          rw [← hslug]
          exact hsl.symm
      rw [hcl'] at hcl
      exact absurd hcl (by simp)
    have hfn : ∀ p ∈ posts,
        p.filename ≠ (m.date.getD "" ++ "-" ++ m.slug.getD "" ++ ".md") :=
      fun p hp heq => hclash p hp (Or.inl heq.symm)
    have hsl : ∀ p ∈ posts, p.slug ≠ m.slug.getD "" :=
      fun p hp heq => hclash p hp (Or.inr heq.symm)
    constructor
    · show ((sync (some dirs) init).1).blogDir _ = none
      simp only [sync, hrp]
      rw [runPosts_blog_stable posts _ _ hfn]
    · show ((sync (some dirs) init).1).staticPosts _ = init.staticPosts _
      simp only [sync, hrp]
      rw [runPosts_static_stable posts _ _ hsl]

/-- Claim C7, witness: a run over a draft post and a published post writes
nothing under the draft post's file name or slug; the completed run leaves
the draft's slug absent from the static map. -/
theorem c7_unpublished_never_written_witness :
    ((sync
        (some
          [{ name := "draft-post",
             meta := some
               { title := some "D", slug := some "d", date := some "2026-01-02",
                 tags := some ([] : List String), status := some "draft" },
             readme := some "draft body", assets := some FentList.nil },
           { name := "pub-post",
             meta := some
               { title := some "P", slug := some "p", date := some "2026-01-01",
                 tags := some (["t"] : List String), status := some "published" },
             readme := some "hello ./assets/a.png",
             assets := some (.cons "a.png" (.file "img") .nil) }])
        { blogDir := fun _ => none, staticPosts := fun _ => none }).1).blogDir
      ("2026-01-02" ++ "-" ++ "d" ++ ".md") = none
    ∧ ((sync
        (some
          [{ name := "draft-post",
             meta := some
               { title := some "D", slug := some "d", date := some "2026-01-02",
                 tags := some ([] : List String), status := some "draft" },
             readme := some "draft body", assets := some FentList.nil },
           { name := "pub-post",
             meta := some
               { title := some "P", slug := some "p", date := some "2026-01-01",
                 tags := some (["t"] : List String), status := some "published" },
             readme := some "hello ./assets/a.png",
             assets := some (.cons "a.png" (.file "img") .nil) }])
        { blogDir := fun _ => none, staticPosts := fun _ => none }).1).staticPosts "d"
      = none :=
  c7_unpublished_never_written
    [{ name := "draft-post",
       meta := some
         { title := some "D", slug := some "d", date := some "2026-01-02",
           tags := some ([] : List String), status := some "draft" },
       readme := some "draft body", assets := some FentList.nil },
     { name := "pub-post",
       meta := some
         { title := some "P", slug := some "p", date := some "2026-01-01",
           tags := some (["t"] : List String), status := some "published" },
       readme := some "hello ./assets/a.png",
       assets := some (.cons "a.png" (.file "img") .nil) }]
    { blogDir := fun _ => none, staticPosts := fun _ => none }
    { name := "draft-post",
      meta := some
        { title := some "D", slug := some "d", date := some "2026-01-02",
          tags := some ([] : List String), status := some "draft" },
      readme := some "draft body", assets := some FentList.nil }
    { title := some "D", slug := some "d", date := some "2026-01-02",
      tags := some ([] : List String), status := some "draft" }
    (by decide) rfl (by decide) (by decide)

/-- Claim C8: running sync twice in a row on unchanged canonical input is
idempotent: if the first run succeeds with final state s1, the second run
succeeds and returns exactly s1 — the generated blog files and per-slug
asset trees are byte-identical across the two runs and are a function of
the canonical content alone (the blog map is rebuilt from empty, and
re-copying every published slug overwrites it with the same tree). -/
theorem c8_sync_idempotent (dirs : List PostDir) (init s1 : SyncState)
    (h : sync (some dirs) init = (s1, none)) :
    sync (some dirs) s1 = (s1, none) := by
  cases hrp : readPublishedPosts dirs with
  | error e =>
    rw [show sync (some dirs) init
        = ({ blogDir := fun _ => none, staticPosts := init.staticPosts }, some e)
      from by simp [sync, hrp]] at h
    exact absurd (congrArg Prod.snd h) (by simp)
  | ok posts =>
    simp only [sync, hrp] at h ⊢
    have hassets := runPosts_ok_inv posts _ s1 h
    rw [runPosts_ok posts _ hassets] at h
    have hs1 : s1 = { blogDir := blogAfter posts (fun _ => none),
                      staticPosts := staticAfter posts init.staticPosts } :=
      (congrArg Prod.fst h).symm
    rw [runPosts_ok posts _ hassets, hs1]
    simp only [staticAfter_idem]

/-- Claim C8, witness: the idempotence theorem applied to a successful run
over one published post; the second run reproduces the first run's state. -/
theorem c8_sync_idempotent_witness :
    sync
      (some
        [{ name := "pub-post",
           meta := some
             { title := some "P", slug := some "good-post", date := some "2026-01-01",
               tags := some (["t"] : List String), status := some "published" },
           readme := some "hello ./assets/a.png",
           assets := some (.cons "a.png" (.file "img") .nil) }])
      (sync
        (some
          [{ name := "pub-post",
             meta := some
               { title := some "P", slug := some "good-post", date := some "2026-01-01",
                 tags := some (["t"] : List String), status := some "published" },
             readme := some "hello ./assets/a.png",
             assets := some (.cons "a.png" (.file "img") .nil) }])
        { blogDir := fun _ => none, staticPosts := fun _ => none }).1
    = ((sync
        (some
          [{ name := "pub-post",
             meta := some
               { title := some "P", slug := some "good-post", date := some "2026-01-01",
                 tags := some (["t"] : List String), status := some "published" },
             readme := some "hello ./assets/a.png",
             assets := some (.cons "a.png" (.file "img") .nil) }])
        { blogDir := fun _ => none, staticPosts := fun _ => none }).1, none) :=
  c8_sync_idempotent _ _ _ rfl

/-- Claim C10: a published post with valid metadata and readable body whose
canonical folder lacks an assets subdirectory makes the whole run fail: the
loop clears the per-slug target and the recursive copy then tries to read
the missing source directory, whose error propagates to a non-zero exit —
asset copying is not skipped. -/
theorem c10_missing_assets_fails_run (dirs : List PostDir) (init : SyncState)
    (h : ∃ d ∈ dirs, publishedValidNoAssets d = true) :
    ((sync (some dirs) init).2).isSome = true := by
  obtain ⟨d, hd, hb⟩ := h
  obtain ⟨q, hq, hqa⟩ := readPost_ok_of_pvna hb
  cases hrp : readPublishedPosts dirs with
  | error e => simp [sync, hrp]
  | ok posts =>
    have hmem := readPublishedPosts_mem dirs posts d q hrp hd hq
    simp only [sync, hrp]
    exact runPosts_error_of_missing posts _ ⟨q, hmem, hqa⟩

/-- Claim C10, witness: a single otherwise-valid published post with no
assets directory makes the run exit with an error. -/
theorem c10_missing_assets_fails_run_witness :
    ((sync
        (some
          [{ name := "pub-post",
             meta := some
               { title := some "P", slug := some "p", date := some "2026-01-01",
                 tags := some (["t"] : List String), status := some "published" },
             readme := some "hello", assets := none }])
        { blogDir := fun _ => none, staticPosts := fun _ => none }).2).isSome = true :=
  c10_missing_assets_fails_run _ _ (by decide)

end BlogVerify
